import Mathlib

/-!
Verification of the bubblesub subtitle editor's core model against its
natural-language specification.

The development shallowly embeds the Python sources:

* `src/bubblesub/api/subs.py` — subtitles API: metadata packing
  (`_pack_meta` / `_extract_meta`), the selection setter, the pre-removal
  selection remapping handler, `unload` and `load_ass`;
* `src/bubblesub/api/cmd.py` — command API: `split_invocation`,
  `parse_cmdline`, `run_cmdline`, `run_async`, the command registry and
  `reload_commands`;
* `src/bubblesub/fmt/ass/event.py` — `AssEvent` and its cached content hash.

Python integers are modelled as `Int` (they are unbounded), Python strings
that undergo character-level processing as `List Char`, other strings as
`String`.  Code that raises is modelled with `Option` / `Except`.
Parts of the repository that the claims depend on but that are not among
the provided sources (the `ListModel`/`ObservableList` container,
`ObservableObject`, `bubblesub.ass.escape_ass_tag`/`unescape_ass_tag`) are
modelled from the specification; each such definition carries a doc
comment starting with `Modelled from the spec:`.
-/

namespace Bubblesub

/-! ## Selection remapping (`SubtitlesApi._on_items_about_to_be_removed`)

```python
def _on_items_about_to_be_removed(self, idx, count):
    new_indexes = list(sorted(self.selected_indexes))
    for i in reversed(range(idx, idx + count)):
        new_indexes = [
            j - 1 if j > i else j
            for j in new_indexes
            if j != i]
    self.selected_indexes = new_indexes
```
-/

/-- One iteration of the remap loop body for a removed index `i`:
`[j - 1 if j > i else j for j in new_indexes if j != i]`. -/
def remapStep (i : Int) (l : List Int) : List Int :=
  (l.filter (fun j => j ≠ i)).map (fun j => if i < j then j - 1 else j)

/-- The whole loop `for i in reversed(range(idx, idx + count))`; the first
iteration uses `i = idx + count - 1`, the last uses `i = idx`. -/
def remapLoop (idx : Int) : Nat → List Int → List Int
  | 0, l => l
  | c + 1, l => remapLoop idx c (remapStep (idx + c) l)

/-- `|{k ∈ [idx, idx+count) : k ≤ j}|` — the number of removed indexes that
are `≤ j`, as written in the specification's remapping formula. -/
def removedLE (idx : Int) (count : Nat) (j : Int) : Nat :=
  (List.range count).countP (fun (k : Nat) => decide (idx + (k : Int) ≤ j))

/-- Python's stable ascending `sorted` on an integer list. -/
def pySorted (l : List Int) : List Int :=
  List.insertionSort (· ≤ ·) l

/-! ### The remap loop as a per-element partial map -/

/-- Per-element effect of one loop iteration. -/
def stepFn (i : Int) (j : Int) : Option Int :=
  if j = i then none else some (if i < j then j - 1 else j)

/-- Per-element effect of the whole loop: indexes inside the removed range
are dropped, indexes above it shift down by `count`. -/
def remapFn (idx : Int) (count : Nat) (j : Int) : Option Int :=
  if idx ≤ j ∧ j < idx + count then none
  else some (if idx + count ≤ j then j - count else j)

theorem remapStep_eq_filterMap (i : Int) (l : List Int) :
    remapStep i l = l.filterMap (stepFn i) := by
  induction l with
  | nil => rfl
  | cons a l ih =>
    simp only [remapStep] at ih ⊢
    by_cases h : a = i
    · simpa [List.filter_cons, List.filterMap_cons, stepFn, h] using ih
    · simpa [List.filter_cons, List.filterMap_cons, stepFn, h] using ih

theorem remapLoop_eq_filterMap (idx : Int) (count : Nat) (l : List Int) :
    remapLoop idx count l = l.filterMap (remapFn idx count) := by
  induction count generalizing l with
  | zero =>
    have h0 : ∀ j : Int, remapFn idx 0 j = some j := by
      intro j
      have hn : ¬(idx ≤ j ∧ j < idx + ((0 : Nat) : Int)) := by omega
      rw [remapFn, if_neg hn]
      have hv : (if idx + ((0 : Nat) : Int) ≤ j then j - ((0 : Nat) : Int)
          else j) = j := by
        split <;> omega
      rw [hv]
    simp only [remapLoop]
    induction l with
    | nil => rfl
    | cons a l ih =>
      rw [List.filterMap_cons, h0 a]
      exact congrArg (List.cons a) ih
  | succ c ih =>
    have key : ∀ j : Int, (stepFn (idx + c) j).bind (remapFn idx c) =
        remapFn idx (c + 1) j := by
      intro j
      by_cases h1 : j = idx + c
      · have hs : stepFn (idx + c) j = none := by rw [stepFn, if_pos h1]
        have hr : remapFn idx (c + 1) j = none := by
          rw [remapFn, if_pos (by omega)]
        rw [hs, hr]
        rfl
      · have hs : stepFn (idx + c) j =
            some (if idx + (c : Int) < j then j - 1 else j) := by
          rw [stepFn, if_neg h1]
        rw [hs]
        show remapFn idx c (if idx + (c : Int) < j then j - 1 else j) =
          remapFn idx (c + 1) j
        by_cases h2 : idx + (c : Int) < j
        · rw [if_pos h2]
          simp only [remapFn]
          split_ifs <;> first
            | rfl
            | (exfalso; omega)
            | (simp only [Option.some.injEq]; omega)
        · rw [if_neg h2]
          simp only [remapFn]
          split_ifs <;> first
            | rfl
            | (exfalso; omega)
    calc remapLoop idx (c + 1) l
        = remapLoop idx c (remapStep (idx + c) l) := rfl
      _ = (remapStep (idx + c) l).filterMap (remapFn idx c) := ih _
      _ = (l.filterMap (stepFn (idx + c))).filterMap (remapFn idx c) := by
            rw [remapStep_eq_filterMap]
      _ = l.filterMap (fun j => (stepFn (idx + c) j).bind (remapFn idx c)) :=
            List.filterMap_filterMap _ _ _
      _ = l.filterMap (remapFn idx (c + 1)) := by
            apply List.filterMap_congr
            intro j _
            exact key j

theorem removedLE_of_lt (idx : Int) (count : Nat) (j : Int) (h : j < idx) :
    removedLE idx count j = 0 := by
  rw [removedLE, List.countP_eq_zero]
  intro k _
  simp only [decide_eq_true_eq]
  omega

theorem removedLE_of_ge (idx : Int) (count : Nat) (j : Int)
    (h : idx + count ≤ j) : removedLE idx count j = count := by
  rw [removedLE]
  have hall : ∀ a ∈ List.range count,
      (fun (k : Nat) => decide (idx + (k : Int) ≤ j)) a = true := by
    intro a ha
    simp only [List.mem_range] at ha
    simp only [decide_eq_true_eq]
    omega
  rw [List.countP_eq_length.mpr hall, List.length_range]

theorem remapFn_eq_some_iff (idx : Int) (count : Nat) (j jq : Int) :
    remapFn idx count j = some jq ↔
      ¬(idx ≤ j ∧ j < idx + count) ∧ jq = j - removedLE idx count j := by
  by_cases h : idx ≤ j ∧ j < idx + (count : Int)
  · rw [remapFn, if_pos h]
    constructor
    · intro hx
      exact Option.noConfusion hx
    · rintro ⟨hn, -⟩
      exact absurd h hn
  · rw [remapFn, if_neg h]
    simp only [Option.some.injEq]
    have hnot := h
    constructor
    · intro hx
      refine ⟨h, ?_⟩
      by_cases h2 : idx + (count : Int) ≤ j
      · rw [if_pos h2] at hx
        rw [removedLE_of_ge idx count j h2]
        omega
      · rw [if_neg h2] at hx
        have hlt : j < idx := by
          rcases not_and_or.mp hnot with h3 | h3 <;> omega
        rw [removedLE_of_lt idx count j hlt]
        omega
    · rintro ⟨-, hx⟩
      by_cases h2 : idx + (count : Int) ≤ j
      · rw [if_pos h2]
        rw [removedLE_of_ge idx count j h2] at hx
        omega
      · rw [if_neg h2]
        have hlt : j < idx := by
          rcases not_and_or.mp hnot with h3 | h3 <;> omega
        rw [removedLE_of_lt idx count j hlt] at hx
        omega

/-! ## Document model state (`SubtitlesApi`) -/

/-- One subtitle line (`Subtitle` in `subs.py`); its fields are opaque to the
selection/removal logic the claims concern. -/
structure Subtitle where
  start : Int
  stop : Int
  style : String
  actor : String
  text : String
  note : String
  effect : String
  layer : Int
  margins : Int × Int × Int
  isComment : Bool
deriving DecidableEq, Repr

/-- One style (`Style` in `subs.py`); only its required `name` key is relevant
to the claims (the remaining fields are visual attributes never consulted by
the operations modelled here). -/
structure Style where
  name : String
deriving DecidableEq, Repr

/-- The mutable state of `SubtitlesApi`. -/
structure SubsState where
  selectedIndexes : List Int
  lines : List Subtitle
  styles : List Style
  path : Option String
deriving DecidableEq, Repr

/-- A `selection_changed` emission: the new index list and the
"did it actually change" flag. -/
structure SelectionChanged where
  indexes : List Int
  changed : Bool
deriving DecidableEq, Repr

/-- The `selected_indexes` setter:
```python
new_selection = list(sorted(new_selection))
changed = new_selection != self._selected_indexes
self._selected_indexes = new_selection
self.selection_changed.emit(new_selection, changed)
```
Returns the new state together with the single emitted notification. -/
def setSelectedIndexes (s : SubsState) (newSelection : List Int) :
    SubsState × SelectionChanged :=
  let ns := pySorted newSelection
  let ch := decide (ns ≠ s.selectedIndexes)
  ({ s with selectedIndexes := ns }, ⟨ns, ch⟩)

/-- `SubtitlesApi._on_items_about_to_be_removed`, fired by the event list
before a removal of `[idx, idx + count)` is applied. -/
def onItemsAboutToBeRemoved (s : SubsState) (idx : Int) (count : Nat) :
    SubsState × SelectionChanged :=
  setSelectedIndexes s (remapLoop idx count (pySorted s.selectedIndexes))

/-- `lines.remove(idx, count)`.  Modelled from the spec: the `ListModel`
container (`bubblesub.util`) is not under `src/`; §4.1 requires every
structural mutation to emit a *before* notification, with indexes valid in
the pre-mutation list, before the backing store is touched.  The connected
handler is `_on_items_about_to_be_removed`. -/
def removeLines (s : SubsState) (idx count : Nat) :
    SubsState × SelectionChanged :=
  let r := onItemsAboutToBeRemoved s idx count
  ({ r.1 with lines := r.1.lines.take idx ++ r.1.lines.drop (idx + count) },
    r.2)

/-- `SubtitlesApi.unload`:
```python
self._path = None
self._ass_source = pysubs2.SSAFile.from_string(EMPTY_ASS, format_='ass')
self.selected_indexes = []
self.lines.remove(0, len(self.lines))
self.styles.remove(0, len(self.styles))
self.loaded.emit()
```
The `_ass_source` replacement carries no state the claims mention and the
style list has no selection hook, so style removal is plain truncation. -/
def unload (s : SubsState) : SubsState × List SelectionChanged :=
  let s0 := { s with path := none }
  let r1 := setSelectedIndexes s0 []
  let r2 := removeLines r1.1 0 r1.1.lines.length
  ({ r2.1 with styles := [] }, [r1.2, r2.2])

/-- `SubtitlesApi.load_ass`: stores the new path, clears the selection, then
`load_from_ass` on lines and styles (each removes all old items — firing the
pre-removal hook — before inserting the freshly parsed ones). -/
def loadAss (s : SubsState) (newPath : String) (newLines : List Subtitle)
    (newStyles : List Style) : SubsState × List SelectionChanged :=
  let s0 := { s with path := some newPath }
  let r1 := setSelectedIndexes s0 []
  let r2 := removeLines r1.1 0 r1.1.lines.length
  ({ r2.1 with lines := newLines, styles := newStyles }, [r1.2, r2.2])

/-- The operations that can change the stored selection (claim C8's list):
direct assignment, a removal (which fires the pre-removal remap),
`load_ass` and `unload`. -/
inductive SubsOp where
  | setSel (l : List Int)
  | removeRange (idx count : Nat)
  | doUnload
  | doLoad (p : String) (ls : List Subtitle) (ss : List Style)

/-- Apply one operation to the state. -/
def applySubsOp (s : SubsState) : SubsOp → SubsState
  | .setSel l => (setSelectedIndexes s l).1
  | .removeRange idx count => (removeLines s idx count).1
  | .doUnload => (unload s).1
  | .doLoad p ls ss => (loadAss s p ls ss).1

theorem mem_pySorted (a : Int) (l : List Int) : a ∈ pySorted l ↔ a ∈ l :=
  (List.perm_insertionSort _ l).mem_iff

theorem sorted_pySorted (l : List Int) : List.Sorted (· ≤ ·) (pySorted l) :=
  List.sorted_insertionSort _ l

theorem remapLoop_nil (idx : Int) (count : Nat) : remapLoop idx count [] = [] := by
  induction count with
  | zero => rfl
  | succ c ih =>
    show remapLoop idx c (remapStep (idx + c) []) = []
    rw [show remapStep (idx + (c : Int)) [] = [] from rfl]
    exact ih

/-- The state `SubtitlesApi.__init__` produces: empty selection, no lines,
one style named `"Default"`, no path. -/
def initState : SubsState :=
  ⟨[], [], [⟨"Default"⟩], none⟩

/-- A demo subtitle line. -/
def demoSub : Subtitle :=
  ⟨0, 1000, "Default", "", "", "", "", 0, (0, 0, 0), false⟩

/-- A populated demo document state. -/
def demoState : SubsState :=
  ⟨[0], [demoSub], [⟨"Default"⟩], some "file.ass"⟩

/-! ## Claim theorems: selection and document reset -/

/-- Claim C1: for every selection S and every removal of the index range
`[idx, idx + count)`, the pre-removal remap handler produces exactly the set
`{j − |{k ∈ removed : k ≤ j}| : j ∈ S, j ∉ removed}`: selected indexes
inside the removed range are dropped and each surviving index shifts down by
the number of removed indexes ≤ it, for arbitrary batch sizes. -/
theorem c1_selection_remap (s : SubsState) (idx : Int) (count : Nat)
    (jq : Int) :
    jq ∈ (onItemsAboutToBeRemoved s idx count).1.selectedIndexes ↔
      ∃ j ∈ s.selectedIndexes,
        ¬(idx ≤ j ∧ j < idx + count) ∧ jq = j - removedLE idx count j := by
  show jq ∈ pySorted (remapLoop idx count (pySorted s.selectedIndexes)) ↔ _
  rw [mem_pySorted, remapLoop_eq_filterMap, List.mem_filterMap]
  constructor
  · rintro ⟨j, hj, hfn⟩
    exact ⟨j, (mem_pySorted j _).mp hj,
      (remapFn_eq_some_iff idx count j jq).mp hfn⟩
  · rintro ⟨j, hj, hcond⟩
    exact ⟨j, (mem_pySorted j _).mpr hj,
      (remapFn_eq_some_iff idx count j jq).mpr hcond⟩

/-- Claim C4 counterexample: after `unload`, the style list is empty — it
does not contain exactly one style named `"Default"` (`unload` removes every
style and never re-inserts the default one). -/
theorem c4_counterexample :
    ¬ ((unload demoState).1.styles.map Style.name = ["Default"]) := by
  decide

/-- Claim C4 (amended): after `unload` the event list is empty, the
selection is empty, the style list is empty (not one default style), and the
path is cleared; `unload` is a total function (never raises). -/
theorem c4_amended (s : SubsState) :
    (unload s).1.lines = [] ∧ (unload s).1.selectedIndexes = [] ∧
    (unload s).1.styles = [] ∧ (unload s).1.path = none := by
  refine ⟨?_, ?_, rfl, rfl⟩
  · show List.take 0 s.lines ++ List.drop (0 + s.lines.length) s.lines = []
    simp
  · show pySorted (remapLoop 0 _ (pySorted (pySorted []))) = []
    rw [show pySorted (pySorted []) = [] from rfl, remapLoop_nil]
    rfl

/-- Claim C5 counterexample: assigning `[1, 1]` to `selected_indexes` stores
`[1, 1]` — the setter sorts but does not deduplicate. -/
theorem c5_counterexample :
    (setSelectedIndexes initState [1, 1]).1.selectedIndexes = [1, 1] ∧
    ¬ (setSelectedIndexes initState [1, 1]).1.selectedIndexes.Nodup := by
  decide

/-- Claim C5 (amended): assigning a list of indexes stores the
ascending-sorted list (duplicates preserved, not deduplicated), and emits
exactly one `selection_changed` notification carrying the stored list
together with a flag that is true iff the stored selection differs from the
previous one. -/
theorem c5_amended (s : SubsState) (input : List Int) :
    List.Sorted (· ≤ ·) (setSelectedIndexes s input).1.selectedIndexes ∧
    ((setSelectedIndexes s input).1.selectedIndexes).Perm input ∧
    (setSelectedIndexes s input).2.indexes =
      (setSelectedIndexes s input).1.selectedIndexes ∧
    ((setSelectedIndexes s input).2.changed = true ↔
      (setSelectedIndexes s input).1.selectedIndexes ≠ s.selectedIndexes) := by
  refine ⟨sorted_pySorted _, List.perm_insertionSort _ _, rfl, ?_⟩
  show decide (pySorted input ≠ s.selectedIndexes) = true ↔ _
  rw [decide_eq_true_eq]
  exact Iff.rfl

/-- Claim C8 counterexample: directly assigning `[1, 1, 5]` on the initial
document (which has zero events) stores a selection that has duplicates and
contains indexes that are not valid indexes of the event list. -/
theorem c8_counterexample :
    ¬ ((applySubsOp initState (.setSel [1, 1, 5])).selectedIndexes.Nodup ∧
      ∀ i ∈ (applySubsOp initState (.setSel [1, 1, 5])).selectedIndexes,
        0 ≤ i ∧
          i < ((applySubsOp initState (.setSel [1, 1, 5])).lines.length : Int)) := by
  decide

/-- Claim C8 (amended): after every operation that can change the selection
(direct assignment, the pre-removal remap triggered by a removal, `load_ass`,
`unload`), the stored selection is sorted ascending.  (Deduplication and
index validity are *not* maintained: the setter neither deduplicates nor
range-checks, see the counterexample.) -/
theorem c8_amended (s : SubsState) (op : SubsOp) :
    List.Sorted (· ≤ ·) (applySubsOp s op).selectedIndexes := by
  cases op <;>
    exact sorted_pySorted _

/-! ## Command subsystem (`bubblesub/api/cmd.py`)

`CommandApi.run_cmdline` parses the whole batch with `parse_cmdline` (which
constructs a `BaseCommand` for every segment, raising `CommandNotFound` for
an unknown name and `BadInvocation` for malformed arguments) and only then
iterates the resulting list, calling `run` on each command.  `run` is
fire-and-forget: `asyncio.ensure_future(self.run_async(cmd))`.  The
single-threaded event loop later executes each scheduled `run_async` to
completion, in FIFO order; `run_async` catches every exception from the
command body, logs it, and returns a bool that `run_cmdline` never sees. -/

/-- Outcome of awaiting a command's body (`cmd.run()`). -/
inductive BodyRes where
  | ok
  | canceledErr
  | unavailableErr
  | otherErr
deriving DecidableEq, Repr

/-- A command implementation class: its registered names, the `silent`
flag, the `is_enabled` property, the behaviour of its body, and its argument
schema (`decorate_parser` + `parse_args`, abstracted as a validity test). -/
structure CmdCls where
  names : List String
  silent : Bool
  enabled : Bool
  body : BodyRes
  argsOk : List String → Bool

/-- The registry dict, modelled as an append-log of `registry[name] = cls`
assignments; lookup takes the most recent assignment, which is exactly
Python dict overwrite semantics. -/
def regGet (r : List (String × CmdCls)) (n : String) : Option CmdCls :=
  (r.reverse.find? (fun p => p.1 == n)).map (fun p => p.2)

/-- Errors `parse_cmdline` can raise: `CommandNotFound`, `BadInvocation`
(from the argument parser), and the `ValueError` Python would raise when
unpacking an empty segment (`cmd_name, *cmd_args = invocation`). -/
inductive CmdErr where
  | notFound (n : String)
  | badInvocation (n : String)
  | valueErr
deriving DecidableEq, Repr

/-- `CommandApi.parse_cmdline`: resolve and construct every segment's
command, left to right, before anything runs; the first problem aborts the
whole parse. -/
def parse_cmdline (reg : List (String × CmdCls)) :
    List (List String) → Except CmdErr (List CmdCls)
  | [] => .ok []
  | seg :: rest =>
    match seg with
    | [] => .error .valueErr
    | n :: args =>
      match regGet reg n with
      | none => .error (.notFound n)
      | some cls =>
        if cls.argsOk args then (parse_cmdline reg rest).map (cls :: ·)
        else .error (.badInvocation n)

/-- Per-command result as logged by `run_async`. -/
inductive RunStatus where
  | succeeded
  | warnedCanceled
  | warnedUnavailable
  | failed
deriving DecidableEq, Repr

/-- `CommandApi.run_async`: `CommandUnavailable` if disabled, then the body;
`CommandCanceled`/`CommandUnavailable` are logged as warnings, any other
exception logs an error; the returned bool says whether the command ran
without problems.  Every error is caught here — it never propagates. -/
def run_async (c : CmdCls) : RunStatus × Bool :=
  if c.enabled then
    match c.body with
    | .ok => (.succeeded, true)
    | .canceledErr => (.warnedCanceled, false)
    | .unavailableErr => (.warnedUnavailable, false)
    | .otherErr => (.failed, false)
  else (.warnedUnavailable, false)

/-- `CommandApi.run_cmdline`: parse the whole batch, then schedule every
parsed command (`asyncio.ensure_future`); the event loop then runs each
scheduled `run_async` to completion in scheduling order.  Returns the
executed commands' outcomes plus the error raised during parsing, if any
(in which case nothing was scheduled). -/
def run_cmdline (reg : List (String × CmdCls)) (segs : List (List String)) :
    List (RunStatus × Bool) × Option CmdErr :=
  match parse_cmdline reg segs with
  | .error e => ([], some e)
  | .ok cmds => (cmds.map run_async, none)

/-- A command whose body raises an unexpected error. -/
def clsFailA : CmdCls :=
  ⟨["cmd-a"], false, true, .otherErr, fun _ => true⟩

/-- A command whose body succeeds. -/
def clsOkB : CmdCls :=
  ⟨["cmd-b"], false, true, .ok, fun _ => true⟩

/-- A demo registry holding the two commands above. -/
def demoReg : List (String × CmdCls) :=
  [("cmd-a", clsFailA), ("cmd-b", clsOkB)]

/-- Claim C3 counterexample: in the chained invocation
`"cmd-a; cmd-b"` where `cmd-a` fails with a raised error, `cmd-b` still
executes (and succeeds): `run_cmdline` schedules every parsed command
unconditionally and `run_async` swallows the failure, so the batch is not
short-circuited. -/
theorem c3_counterexample :
    run_cmdline demoReg [["cmd-a"], ["cmd-b"]] =
      ([(.failed, false), (.succeeded, true)], none) := by
  rfl

/-- Claim C3 (amended): when a batch parses successfully, *every* parsed
command is executed, in order, regardless of earlier commands' failures —
each failure is contained inside its own `run_async`, which never
propagates and whose boolean result `run_cmdline` ignores. -/
theorem c3_amended (reg : List (String × CmdCls)) (segs : List (List String))
    (cmds : List CmdCls) (h : parse_cmdline reg segs = .ok cmds) :
    (run_cmdline reg segs).1.length = cmds.length ∧
    ∀ j : Nat, (run_cmdline reg segs).1[j]? = (cmds[j]?).map run_async := by
  rw [run_cmdline, h]
  refine ⟨List.length_map _ _, ?_⟩
  intro j
  exact List.getElem?_map run_async cmds j

/-- Claim C3 witness at the concrete two-command batch. -/
theorem c3_witness :
    parse_cmdline demoReg [["cmd-a"], ["cmd-b"]] = .ok [clsFailA, clsOkB] ∧
    ((run_cmdline demoReg [["cmd-a"], ["cmd-b"]]).1.length =
        [clsFailA, clsOkB].length ∧
      ∀ j : Nat, (run_cmdline demoReg [["cmd-a"], ["cmd-b"]]).1[j]? =
        ([clsFailA, clsOkB][j]?).map run_async) :=
  ⟨rfl, c3_amended demoReg [["cmd-a"], ["cmd-b"]] [clsFailA, clsOkB] rfl⟩

/-- A segment that parses successfully: nonempty, known name, valid args. -/
def parsesOkSeg (reg : List (String × CmdCls)) (seg : List String) : Prop :=
  ∃ m margs cls, seg = m :: margs ∧ regGet reg m = some cls ∧
    cls.argsOk margs = true

theorem parse_cmdline_err_of_unknown (reg : List (String × CmdCls))
    (segs : List (List String))
    (h : ∃ seg ∈ segs, ∃ n args, seg = n :: args ∧ regGet reg n = none) :
    ∃ e, parse_cmdline reg segs = .error e := by
  induction segs with
  | nil =>
    rcases h with ⟨seg, hm, -⟩
    exact absurd hm (List.not_mem_nil seg)
  | cons seg rest ih =>
    rcases h with ⟨seg', hm, n, args, hseg, hget⟩
    rcases List.mem_cons.mp hm with rfl | hm'
    · rw [hseg]
      exact ⟨.notFound n, by rw [parse_cmdline, hget]⟩
    · match hs : seg with
      | [] => exact ⟨.valueErr, by rw [parse_cmdline]⟩
      | m :: margs =>
        match hg : regGet reg m with
        | none => exact ⟨.notFound m, by rw [parse_cmdline, hg]⟩
        | some cls =>
          by_cases ha : cls.argsOk margs = true
          · rcases ih ⟨seg', hm', n, args, hseg, hget⟩ with ⟨e, he⟩
            refine ⟨e, ?_⟩
            rw [parse_cmdline]
            simp only [hg]
            rw [if_pos ha, he]
            rfl
          · refine ⟨.badInvocation m, ?_⟩
            rw [parse_cmdline]
            simp only [hg]
            rw [if_neg ha]

theorem parse_cmdline_notFound (reg : List (String × CmdCls))
    (pre : List (List String)) (n : String) (args : List String)
    (post : List (List String)) (hget : regGet reg n = none)
    (hpre : ∀ seg ∈ pre, parsesOkSeg reg seg) :
    parse_cmdline reg (pre ++ (n :: args) :: post) = .error (.notFound n) := by
  induction pre with
  | nil =>
    rw [List.nil_append, parse_cmdline, hget]
  | cons s0 pre' ih =>
    rcases hpre s0 (List.mem_cons_self s0 pre') with ⟨m, margs, cls, hseg, hg, ha⟩
    rw [List.cons_append, hseg, parse_cmdline]
    simp only [hg]
    rw [if_pos ha, ih (fun seg hm => hpre seg (List.mem_cons_of_mem s0 hm))]
    rfl

/-- Claim C6: if any segment of a chained invocation names a command absent
from the registry, the whole batch fails before any command executes —
nothing is scheduled; and when the unknown-name segment is the first
problematic one, the raised error is precisely `CommandNotFound` for that
name. -/
theorem c6_unknown_name (reg : List (String × CmdCls))
    (segs : List (List String)) :
    ((∃ seg ∈ segs, ∃ n args, seg = n :: args ∧ regGet reg n = none) →
      ∃ e, run_cmdline reg segs = ([], some e)) ∧
    (∀ pre n args post,
      segs = pre ++ (n :: args) :: post →
      regGet reg n = none →
      (∀ seg ∈ pre, parsesOkSeg reg seg) →
      run_cmdline reg segs = ([], some (.notFound n))) := by
  constructor
  · intro h
    rcases parse_cmdline_err_of_unknown reg segs h with ⟨e, he⟩
    exact ⟨e, by rw [run_cmdline, he]⟩
  · intro pre n args post hsegs hget hpre
    rw [hsegs, run_cmdline, parse_cmdline_notFound reg pre n args post hget hpre]

/-- Claim C6 witness: the batch `"cmd-a; nope"` (second segment unknown)
fails with `CommandNotFound "nope"` and executes nothing. -/
theorem c6_witness :
    run_cmdline demoReg [["cmd-a"], ["nope"]] =
      ([], some (.notFound "nope")) :=
  (c6_unknown_name demoReg [["cmd-a"], ["nope"]]).2 [["cmd-a"]] "nope" [] []
    rfl rfl
    (by
      intro seg hm
      rcases List.mem_singleton.mp hm with rfl
      exact ⟨"cmd-a", [], clsFailA, rfl, rfl, rfl⟩)

/-! ## Command registry reload (`reload_commands` / `_load_commands`) -/

/-- The sequence of `self._registry[name] = cls` assignments performed by
`_load_commands` over a source (a list of modules, each exposing a
`COMMANDS` collection): for every module, for every class, for every name.
The filesystem/importlib discovery mechanism is out of the model (the spec
declares the loading mechanism out of scope). -/
def registrations (src : List (List CmdCls)) : List (String × CmdCls) :=
  src.flatMap (fun m => m.flatMap (fun cls =>
    cls.names.map (fun n => (n, cls))))

/-- `CommandApi._load_commands`: append this source's assignments to the
registry log. -/
def load_commands (reg : List (String × CmdCls)) (src : List (List CmdCls)) :
    List (String × CmdCls) :=
  reg ++ registrations src

/-- `CommandApi.reload_commands`: clear the registry, load the built-in
source, then — if a root dir is configured — load the external scripts
source on top. -/
def reload_commands (builtin : List (List CmdCls))
    (ext : Option (List (List CmdCls))) : List (String × CmdCls) :=
  match ext with
  | none => load_commands [] builtin
  | some e => load_commands (load_commands [] builtin) e

/-- The last registration a source performs for a given name. -/
def lastRegOf (src : List (List CmdCls)) (n : String) : Option CmdCls :=
  ((registrations src).reverse.find? (fun p => p.1 == n)).map (fun p => p.2)

/-- Claim C7: after `reload_commands` with an external source, looking up a
name the external source registers returns the external source's (last)
implementation — later sources shadow earlier registrations for the same
name, so an external command with a built-in command's name wins. -/
theorem c7_reload_shadowing (builtin ext : List (List CmdCls)) (n : String)
    (cls : CmdCls) (h : lastRegOf ext n = some cls) :
    regGet (reload_commands builtin (some ext)) n = some cls := by
  unfold lastRegOf at h
  show ((([] ++ registrations builtin) ++ registrations ext).reverse.find?
    (fun (p : String × CmdCls) => p.1 == n)).map
      (fun (p : String × CmdCls) => p.2) = some cls
  rw [List.nil_append, List.reverse_append, List.find?_append]
  rcases hfind : List.find? (fun (p : String × CmdCls) => p.1 == n)
      (registrations ext).reverse with _ | pr
  · rw [hfind] at h
    exact absurd h (by simp)
  · rw [hfind] at h
    exact h

/-- A built-in command registered as `"shared-name"`. -/
def clsBuiltinX : CmdCls :=
  ⟨["shared-name"], false, true, .ok, fun _ => true⟩

/-- An external command registered under the same `"shared-name"`. -/
def clsExternalX : CmdCls :=
  ⟨["shared-name"], true, false, .otherErr, fun _ => false⟩

/-- Claim C7 witness: with a built-in and an external source both
registering `"shared-name"`, lookup after reload returns the external
implementation. -/
theorem c7_witness :
    regGet (reload_commands [[clsBuiltinX]] (some [[clsExternalX]]))
      "shared-name" = some clsExternalX :=
  c7_reload_shadowing [[clsBuiltinX]] [[clsExternalX]] "shared-name"
    clsExternalX rfl

/-! ## `AssEvent` and its cached content hash (`bubblesub/fmt/ass/event.py`)

`AssEvent._after_change` recomputes the cached `_hash` as
`hash((id(self.event_list), start, end, style, actor, text, note, effect,
layer, margin_left, margin_right, margin_vertical, is_comment))`.
Python's `hash` of that 13-tuple is modelled as the tuple itself — an
injective abstraction; the claim concerns which inputs feed the hash, which
is what the model captures.  `id(event_list)` is modelled as
`Option Nat` (`none` for a detached event, a per-list identifier
otherwise). -/

/-- Python's single-character `str.replace(c, rep)` — a literal per-character
expansion. -/
def charReplace (c : Char) (rep : List Char) (s : List Char) : List Char :=
  s.flatMap (fun x => if x = c then rep else [x])

/-- The 13-tuple hashed by `AssEvent._after_change`, with components in
source order. -/
structure HashTuple where
  listId : Option Nat
  hStart : Int
  hStop : Int
  hStyle : String
  hActor : String
  hText : List Char
  hNote : List Char
  hEffect : String
  hLayer : Int
  hMarginLeft : Int
  hMarginRight : Int
  hMarginVertical : Int
  hIsComment : Bool
deriving DecidableEq

/-- The cached `_hash` slot: `0` right after `__init__`, otherwise the hash
of the tuple computed by the last `_after_change`. -/
inductive PyHash where
  | initZero
  | ofTuple (t : HashTuple)
deriving DecidableEq

/-- `AssEvent`: all fields, the `event_list` back-reference (by identity)
and the cached hash.  `text`/`note` are `List Char` because their setters
do character-level newline normalization. -/
structure AssEvent where
  start : Int
  stop : Int
  style : String
  actor : String
  text : List Char
  note : List Char
  effect : String
  layer : Int
  marginLeft : Int
  marginRight : Int
  marginVertical : Int
  isComment : Bool
  eventListId : Option Nat
  hashVal : PyHash

/-- The tuple `_after_change` feeds to `hash`. -/
def hashTupleOf (e : AssEvent) : HashTuple :=
  ⟨e.eventListId, e.start, e.stop, e.style, e.actor, e.text, e.note,
    e.effect, e.layer, e.marginLeft, e.marginRight, e.marginVertical,
    e.isComment⟩

/-- `_after_change`: recompute the cached hash from the current state.
Modelled from the spec: the `ObservableObject` base (`bubblesub.model`) is
not under `src/`; §4.2 requires every attribute write to run the post-change
hook, which is `_after_change` here. -/
def afterChange (e : AssEvent) : AssEvent :=
  { e with hashVal := .ofTuple (hashTupleOf e) }

/-- `AssEvent.__init__`: stores the fields (the `text`/`note` arguments go
to `_text`/`_note` directly, with no normalization), leaves the event
detached, and ends with `self._hash = 0`. -/
def mkAssEvent (start stop : Int) (style actor : String)
    (text note : List Char) (effect : String)
    (layer marginLeft marginRight marginVertical : Int) (isComment : Bool) :
    AssEvent :=
  ⟨start, stop, style, actor, text, note, effect, layer, marginLeft,
    marginRight, marginVertical, isComment, none, .initZero⟩

/-- `AssEventList._on_items_insertion` sets `item.event_list = self` on
insertion; per the §4.2 attribute-write contract this runs the change hooks,
so the cached hash is recomputed with the new list identity. -/
def attachToList (lid : Nat) (e : AssEvent) : AssEvent :=
  afterChange { e with eventListId := some lid }

/-- A field update on an `AssEvent` (every mutable field from the claim). -/
inductive EvUpd where
  | uStart (v : Int)
  | uStop (v : Int)
  | uStyle (v : String)
  | uActor (v : String)
  | uText (v : List Char)
  | uNote (v : List Char)
  | uEffect (v : String)
  | uLayer (v : Int)
  | uMarginLeft (v : Int)
  | uMarginRight (v : Int)
  | uMarginVertical (v : Int)
  | uIsComment (v : Bool)

/-- Apply a field update through the §4.2 write-then-hook contract; the
`text` and `note` setters first normalize newlines to `\N`. -/
def applyUpd : EvUpd → AssEvent → AssEvent
  | .uStart v, e => afterChange { e with start := v }
  | .uStop v, e => afterChange { e with stop := v }
  | .uStyle v, e => afterChange { e with style := v }
  | .uActor v, e => afterChange { e with actor := v }
  | .uText v, e => afterChange { e with text := charReplace '\n' ['\\', 'N'] v }
  | .uNote v, e => afterChange { e with note := charReplace '\n' ['\\', 'N'] v }
  | .uEffect v, e => afterChange { e with effect := v }
  | .uLayer v, e => afterChange { e with layer := v }
  | .uMarginLeft v, e => afterChange { e with marginLeft := v }
  | .uMarginRight v, e => afterChange { e with marginRight := v }
  | .uMarginVertical v, e => afterChange { e with marginVertical := v }
  | .uIsComment v, e => afterChange { e with isComment := v }

theorem hashVal_applyUpd (u : EvUpd) (e : AssEvent) :
    (applyUpd u e).hashVal = .ofTuple (hashTupleOf (applyUpd u e)) := by
  cases u <;> rfl

/-- Claim C9: two events with identical field values attached to two
different event lists have different cached hashes, because the hash is
recomputed on mutation (including the attachment write) and incorporates the
owning list's identity together with all fields; likewise, an event whose
cached hash is in sync hashes differently after any field change that
actually alters the hashed tuple. -/
theorem c9_hash_identity :
    (∀ (st en : Int) (sty act : String) (tx nt : List Char) (eff : String)
      (la ml mr mv : Int) (ic : Bool) (l1 l2 : Nat), l1 ≠ l2 →
      (attachToList l1
        (mkAssEvent st en sty act tx nt eff la ml mr mv ic)).hashVal ≠
      (attachToList l2
        (mkAssEvent st en sty act tx nt eff la ml mr mv ic)).hashVal) ∧
    (∀ (e : AssEvent) (u : EvUpd),
      e.hashVal = .ofTuple (hashTupleOf e) →
      hashTupleOf (applyUpd u e) ≠ hashTupleOf e →
      (applyUpd u e).hashVal ≠ e.hashVal) := by
  constructor
  · intro st en sty act tx nt eff la ml mr mv ic l1 l2 hne heq
    apply hne
    simpa [attachToList, afterChange, mkAssEvent, hashTupleOf,
      HashTuple.mk.injEq] using heq
  · intro e u h1 h2 heq
    rw [hashVal_applyUpd u e, h1] at heq
    exact h2 (PyHash.ofTuple.inj heq)

/-- A concrete attached event whose cached hash is in sync. -/
def demoEvent : AssEvent :=
  attachToList 0 (mkAssEvent 0 1000 "Default" "" [] [] "" 0 0 0 0 false)

/-- Claim C9 witness: concrete instantiation of both conjuncts — lists `0`
vs `1`, and a `start := 5` update on a synced event. -/
theorem c9_witness :
    ((attachToList 0
        (mkAssEvent 0 1000 "Default" "" [] [] "" 0 0 0 0 false)).hashVal ≠
      (attachToList 1
        (mkAssEvent 0 1000 "Default" "" [] [] "" 0 0 0 0 false)).hashVal) ∧
    (applyUpd (.uStart 5) demoEvent).hashVal ≠ demoEvent.hashVal :=
  ⟨c9_hash_identity.1 0 1000 "Default" "" [] [] "" 0 0 0 0 false 0 1
      (by decide),
    c9_hash_identity.2 demoEvent (.uStart 5) rfl (by decide)⟩

/-! ## `split_invocation` (`bubblesub/api/cmd.py`)

```python
splitter = shlex.shlex(invocation, punctuation_chars=";")
splitter.wordchars = "".join(
    char for char in invocation
    if char not in splitter.quotes + splitter.whitespace + ";")
tokens = list(splitter)
invocations = [
    list(group)
    for key, group in itertools.groupby(tokens, lambda token: token == ";")
    if not key]
```

Because `wordchars` is redefined to contain *every* character of the input
except quotes, whitespace and `;`, each character falls into exactly one
class: whitespace (` \t\r\n`), quote (`'`, `"`), punctuation (`;`), comment
(`#`, shlex's default `commenters`, checked before `wordchars`), or word.
The embedded lexer below mirrors `shlex.read_token` (non-posix mode) on
this restricted alphabet:
* start state: whitespace skipped; `#` consumes the rest of the line;
  `;` enters the punctuation-run state; a quote starts a quoted token
  (quote characters kept in the token); anything else starts a word;
* word state: whitespace ends the token; `#` consumes the rest of the line
  and the token continues; `;` is pushed back and ends the token; word and
  quote characters are appended (in non-posix mode a quote *inside* a word
  is an ordinary character);
* punctuation state: further `;` are appended (a run like `;;` is one
  token); whitespace ends the token; `#` consumes the line; any other
  character is pushed back and ends the token;
* quote state: everything up to the matching quote is appended (`;`, `#`
  included); the closing quote is appended and ends the token; end of input
  inside a quote raises `ValueError` ("No closing quotation").
Fuel (one unit per consumed character) makes the recursion structural, so
terms evaluate by kernel reduction; `input.length + 1` fuel always
suffices. -/

/-- Lexer state: shlex's `' '`, `'a'`, `'c'` and in-quote states. -/
inductive LexSt where
  | stStart
  | stWord
  | stPunct
  | stQuote (q : Char)

/-- `shlex.whitespace` (`" \t\r\n"`). -/
def isShlexWs (c : Char) : Bool :=
  c = ' ' || c = '\t' || c = '\r' || c = '\n'

/-- `shlex.quotes` (`'` and `"`). -/
def isQuoteChar (c : Char) : Bool :=
  c = '\'' || c = '"'

/-- `instream.readline()`: consume the rest of the line, including the
newline. -/
def skipLine (s : List Char) : List Char :=
  (s.dropWhile (fun c => c ≠ '\n')).drop 1

/-- The token stream of `shlex` on the restricted alphabet (see the section
comment).  `tok` is the token accumulated so far; `.error ()` is the
`ValueError` raised on an unterminated quote (the fuel-exhausted case is
unreachable for fuel > input length). -/
def lexAux : Nat → List Char → LexSt → List Char →
    Except Unit (List (List Char))
  | 0, _, _, _ => .error ()
  | _ + 1, [], st, tok =>
    match st with
    | .stStart => .ok []
    | .stWord => .ok [tok]
    | .stPunct => .ok [tok]
    | .stQuote _ => .error ()
  | fuel + 1, c :: rest, st, tok =>
    match st with
    | .stStart =>
      if isShlexWs c then lexAux fuel rest .stStart []
      else if c = '#' then lexAux fuel (skipLine rest) .stStart []
      else if c = ';' then lexAux fuel rest .stPunct [c]
      else if isQuoteChar c then lexAux fuel rest (.stQuote c) [c]
      else lexAux fuel rest .stWord [c]
    | .stWord =>
      if isShlexWs c then (lexAux fuel rest .stStart []).map (tok :: ·)
      else if c = '#' then lexAux fuel (skipLine rest) .stWord tok
      else if c = ';' then (lexAux fuel rest .stPunct [c]).map (tok :: ·)
      else lexAux fuel rest .stWord (tok ++ [c])
    | .stPunct =>
      if c = ';' then lexAux fuel rest .stPunct (tok ++ [c])
      else if isShlexWs c then (lexAux fuel rest .stStart []).map (tok :: ·)
      else if c = '#' then lexAux fuel (skipLine rest) .stPunct tok
      else if isQuoteChar c then
        (lexAux fuel rest (.stQuote c) [c]).map (tok :: ·)
      else (lexAux fuel rest .stWord [c]).map (tok :: ·)
    | .stQuote q =>
      if c = q then
        (lexAux fuel rest .stStart []).map (fun ts => (tok ++ [c]) :: ts)
      else lexAux fuel rest (.stQuote q) (tok ++ [c])

/-- `itertools.groupby(tokens, lambda token: token == ";")` keeping only the
non-`";"` groups: maximal runs of tokens different from the single-character
token `";"`.  `cur` is the current group, reversed. -/
def groupAux : List (List Char) → List (List Char) → List (List (List Char))
  | [], cur => if cur.isEmpty then [] else [cur.reverse]
  | t :: rest, cur =>
    if t = [';'] then
      if cur.isEmpty then groupAux rest [] else cur.reverse :: groupAux rest []
    else groupAux rest (t :: cur)

/-- Group a token stream into `;`-separated invocations. -/
def groupTokens (toks : List (List Char)) : List (List (List Char)) :=
  groupAux toks []

/-- `split_invocation`: tokenize, then group into invocations. -/
def split_invocation (s : List Char) :
    Except Unit (List (List (List Char))) :=
  (lexAux (s.length + 1) s .stStart []).map groupTokens

theorem groupAux_no_nil (toks : List (List Char)) :
    ∀ cur, [] ∉ groupAux toks cur := by
  induction toks with
  | nil =>
    intro cur
    by_cases h : cur.isEmpty
    · simp [groupAux, h]
    · simp only [groupAux, if_neg h, List.mem_singleton]
      intro hrev
      apply h
      rw [List.isEmpty_iff, ← List.reverse_eq_nil_iff, hrev]
  | cons t rest ih =>
    intro cur
    by_cases ht : t = [';']
    · by_cases hc : cur.isEmpty
      · simpa [groupAux, ht, hc] using ih []
      · simp only [groupAux, if_pos ht, if_neg hc, List.mem_cons]
        rintro (hrev | hmem)
        · apply hc
          rw [List.isEmpty_iff, ← List.reverse_eq_nil_iff, ← hrev]
        · exact ih [] hmem
    · simpa [groupAux, ht] using ih (t :: cur)

/-- Claim C10 counterexample: `split_invocation "a;;b"` yields ONE segment
`['a', ';;', 'b']` — shlex returns a run of punctuation characters as a
single `";;"` token, which is not equal to `";"` and hence does not
separate invocations — not the two segments `a` and `b` the claim states. -/
theorem c10_counterexample :
    split_invocation ("a;;b".data) = .ok [[['a'], [';', ';'], ['b']]] ∧
    [[['a'], [';', ';'], ['b']]] ≠ ([[['a']], [['b']]] : List (List (List Char))) := by
  constructor
  · rfl
  · decide

/-- Claim C10 (amended): whenever `split_invocation` returns (it raises on
an unterminated quote), no returned invocation segment is empty: separator
tokens never produce empty groups, so leading, trailing or
whitespace-separated `;` separators yield no empty invocations.  (The
claim's other examples do not all hold: an unquoted `;;` run is a single
non-separator token — see the counterexample — and a quote opened
mid-word does not protect `;`.) -/
theorem c10_amended (s : List Char) (segs : List (List (List Char)))
    (h : split_invocation s = .ok segs) : [] ∉ segs := by
  rcases hlex : lexAux (s.length + 1) s .stStart [] with e | toks
  · rw [split_invocation, hlex] at h
    exact absurd h (by simp [Except.map])
  · rw [split_invocation, hlex] at h
    have hsegs : segs = groupTokens toks := by
      simpa [Except.map] using h.symm
    rw [hsegs]
    exact groupAux_no_nil toks []

/-- Claim C10 witness: the two-command invocation `"a; b"` splits into the
segments for `a` and `b`, neither of which is empty. -/
theorem c10_witness : [] ∉ [[['a']], [['b']]] :=
  c10_amended ("a; b".data) [[['a']], [['b']]] rfl

/-! ## Metadata packing (`_pack_meta` / `_extract_meta`, `subs.py`)

```python
def _extract_meta(text):
    meta = Meta(note=None, start=None, end=None)
    match = re.search(r'{NOTE:(?P<note>[^}]*)}', text)
    if match:
        text = text[:match.start()] + text[match.end():]
        meta.note = bubblesub.ass.unescape_ass_tag(match.group('note'))
    match = re.search(r'{TIME:(?P<start>-?\d+),(?P<end>-?\d+)}', text)
    if match:
        text = text[:match.start()] + text[match.end():]
        meta.start = int(match.group('start'))
        meta.end = int(match.group('end'))
    return text, meta

def _pack_meta(text, meta):
    if meta.start is not None or meta.end is not None:
        text = '{TIME:%d,%d}' % (meta.start, meta.end) + text
    if meta.note:
        text += '{NOTE:%s}' % (
            bubblesub.ass.escape_ass_tag(meta.note.replace('\n', '\\N')))
    return text
```

The two regex searches are embedded as leftmost-match scanners.  For these
particular patterns greedy matching without backtracking is exact: in
`[^}]*}` any shorter match of the starred part would leave a non-`}`
character where `}` is required, and in `-?\d+,` any shorter digit run
would leave a digit where `,` is required, so the maximal-run reading below
is the regex's semantics. -/

/-- The escape map of `bubblesub.ass.escape_ass_tag` as a per-character
function (the three chained single-character `str.replace` calls compose to
this, proved in `escape_eq_flatMap`). -/
def escChar (c : Char) : List Char :=
  if c = '\\' then ['\\', '\\']
  else if c = '\x7b' then ['\\', '[']
  else if c = '\x7d' then ['\\', ']']
  else [c]

/-- Modelled from the spec: `bubblesub.ass.escape_ass_tag` is not under
`src/`.  §4.3 requires escaping the tag-reserved characters of the note
with the ASS tag-escaping convention; that convention doubles backslashes
and rewrites `{` to `\[` and `}` to `\]`, as successive `str.replace`
calls. -/
def escape_ass_tag (s : List Char) : List Char :=
  charReplace '\x7d' ['\\', ']']
    (charReplace '\x7b' ['\\', '[']
      (charReplace '\\' ['\\', '\\'] s))

/-- Python `str.replace` for the two-character pattern `[a, b]`: leftmost,
non-overlapping. -/
def replace2 (a b : Char) (rep : List Char) : List Char → List Char
  | [] => []
  | [c] => [c]
  | c :: d :: rest =>
    if c = a ∧ d = b then rep ++ replace2 a b rep rest
    else c :: replace2 a b rep (d :: rest)

/-- Modelled from the spec: `bubblesub.ass.unescape_ass_tag` is not under
`src/`.  The inverse convention: `\\` to `\`, then `\[` to `{`, then `\]`
to `}`, as successive `str.replace` calls. -/
def unescape_ass_tag (s : List Char) : List Char :=
  replace2 '\\' ']' ['\x7d']
    (replace2 '\\' '[' ['\x7b']
      (replace2 '\\' '\\' ['\\'] s))

/-- The `Meta` record of `subs.py` (`note`/`start`/`end`, each possibly
`None`). -/
structure SubMeta where
  note : Option (List Char)
  start : Option Int
  stop : Option Int
deriving DecidableEq, Repr

/-- Decimal digits of `n`, most significant first (fuel-structural so terms
kernel-reduce; `n + 1` fuel always suffices). -/
def natToCharsAux : Nat → Nat → List Char
  | 0, _ => []
  | fuel + 1, n =>
    if n < 10 then [Nat.digitChar n]
    else natToCharsAux fuel (n / 10) ++ [Nat.digitChar (n % 10)]

/-- Decimal rendering of a natural number. -/
def natToChars (n : Nat) : List Char :=
  natToCharsAux (n + 1) n

/-- Python's `'%d' % v`: minus sign plus decimal digits. -/
def intToChars (v : Int) : List Char :=
  if v < 0 then '-' :: natToChars (-v).toNat else natToChars v.toNat

/-- Value of a digit string (as `int` would read it, no sign). -/
def charsToNat (ds : List Char) : Nat :=
  ds.foldl (fun acc c => acc * 10 + (c.toNat - 48)) 0

/-- The literal `{NOTE:`. -/
def noteKey : List Char := ['\x7b', 'N', 'O', 'T', 'E', ':']

/-- The literal `{TIME:`. -/
def timeKey : List Char := ['\x7b', 'T', 'I', 'M', 'E', ':']

/-- `'{TIME:%d,%d}' % (s, e)`. -/
def timeChars (s e : Int) : List Char :=
  timeKey ++ intToChars s ++ [','] ++ intToChars e ++ ['\x7d']

/-- The `{NOTE:...}` suffix appended for a (truthy) note: the note's
newlines become `\N`, the result is tag-escaped. -/
def noteTagOf (n : List Char) : List Char :=
  noteKey ++ escape_ass_tag (charReplace '\n' ['\\', 'N'] n) ++ ['\x7d']

/-- The `if meta.note:` part of `_pack_meta` (appended after the TIME
prefix). -/
def packNote (t : List Char) (m : SubMeta) : List Char :=
  match m.note with
  | some n => if n.isEmpty then t else t ++ noteTagOf n
  | none => t

/-- `_pack_meta`.  Returns `none` exactly where Python raises: `'%d'`
applied to `None` when only one of `start`/`end` is set. -/
def pack_meta (text : List Char) (m : SubMeta) : Option (List Char) :=
  match m.start, m.stop with
  | none, none => some (packNote text m)
  | some s, some e => some (packNote (timeChars s e ++ text) m)
  | _, _ => none

/-- Attempt to match `{NOTE:[^}]*}` at the head of `s`: the literal key,
then the maximal run of non-`}` characters, then `}`; returns the captured
content and the remainder after the match. -/
def noteMatchAt (s : List Char) : Option (List Char × List Char) :=
  if noteKey.isPrefixOf s then
    if '\x7d' ∈ s.drop 6 then
      some ((s.drop 6).takeWhile (fun c => c ≠ '\x7d'),
        ((s.drop 6).dropWhile (fun c => c ≠ '\x7d')).drop 1)
    else none
  else none

/-- `re.search` for the NOTE pattern: try every position left to right;
returns (text before the match, captured content, text after the match). -/
def noteScan : List Char → Option (List Char × List Char × List Char)
  | [] => none
  | c :: rest =>
    match noteMatchAt (c :: rest) with
    | some (content, post) => some ([], content, post)
    | none => (noteScan rest).map (fun r => (c :: r.1, r.2.1, r.2.2))

/-- Parse `\d+` at the head: the maximal digit run, which must be
nonempty. -/
def digitsParse (s : List Char) : Option (Nat × List Char) :=
  if (s.takeWhile Char.isDigit).isEmpty then none
  else some (charsToNat (s.takeWhile Char.isDigit), s.dropWhile Char.isDigit)

/-- Parse `-?\d+` at the head: optional minus sign, then the maximal
nonempty digit run. -/
def parseIntFrom : List Char → Option (Int × List Char)
  | [] => none
  | c :: rest =>
    if c = '-' then
      (digitsParse rest).map (fun r => (-(r.1 : Int), r.2))
    else
      (digitsParse (c :: rest)).map (fun r => ((r.1 : Int), r.2))

/-- Attempt to match `{TIME:(-?\d+),(-?\d+)}` at the head of `s`. -/
def timeMatchAt (str : List Char) : Option (Int × Int × List Char) :=
  if timeKey.isPrefixOf str then
    match parseIntFrom (str.drop 6) with
    | some (a, r2) =>
      match r2 with
      | c :: r3 =>
        if c = ',' then
          match parseIntFrom r3 with
          | some (b, r4) =>
            match r4 with
            | d :: r5 => if d = '\x7d' then some (a, b, r5) else none
            | [] => none
          | none => none
        else none
      | [] => none
    | none => none
  else none

/-- `re.search` for the TIME pattern, leftmost position first. -/
def timeScan : List Char → Option (List Char × Int × Int × List Char)
  | [] => none
  | c :: rest =>
    match timeMatchAt (c :: rest) with
    | some (a, b, post) => some ([], a, b, post)
    | none => (timeScan rest).map (fun r => (c :: r.1, r.2.1, r.2.2.1, r.2.2.2))

/-- The NOTE phase of `_extract_meta`: strip the first NOTE match (if any)
from the text and unescape the captured note. -/
def extractNote (text : List Char) : List Char × Option (List Char) :=
  match noteScan text with
  | some (pre, content, post) => (pre ++ post, some (unescape_ass_tag content))
  | none => (text, none)

/-- The TIME phase of `_extract_meta`: strip the first TIME match (if any)
from the remaining text and read the two integers. -/
def extractTime (t : List Char × Option (List Char)) : List Char × SubMeta :=
  match timeScan t.1 with
  | some (pre, a, b, post) => (pre ++ post, ⟨t.2, some a, some b⟩)
  | none => (t.1, ⟨t.2, none, none⟩)

/-- `_extract_meta`: the NOTE search/strip, then the TIME search/strip. -/
def extract_meta (text : List Char) : List Char × SubMeta :=
  extractTime (extractNote text)

/-- Claim C2 counterexample: for start 1, end 2, text `"x"` and the note
`"{\n}"` (which contains `{`, `}` and an embedded newline), packing then
unpacking does not reproduce the note: the newline comes back as the
two-character sequence `\N`, because `_pack_meta` rewrites `\n` to `\N`
before escaping and `_extract_meta` never converts it back. -/
theorem c2_counterexample :
    (pack_meta ['x'] ⟨some ['\x7b', '\n', '\x7d'], some 1, some 2⟩).map
        extract_meta ≠
      some (['x'], ⟨some ['\x7b', '\n', '\x7d'], some 1, some 2⟩) := by
  decide

/-! ### Escape/unescape round trip

For a note without `[` or `]` (after newline normalization),
`unescape_ass_tag` inverts `escape_ass_tag`.  The proof stages the three
`replace2` passes of `unescape_ass_tag` over the per-character image of
`escape_ass_tag`. -/

/-- Image of a character after the backslash-undoubling pass. -/
def esc2Char (c : Char) : List Char :=
  if c = '\\' then ['\\']
  else if c = '\x7b' then ['\\', '[']
  else if c = '\x7d' then ['\\', ']']
  else [c]

/-- Image of a character after the backslash-undoubling and `\[`-to-`{`
passes. -/
def esc3Char (c : Char) : List Char :=
  if c = '\\' then ['\\']
  else if c = '\x7b' then ['\x7b']
  else if c = '\x7d' then ['\\', ']']
  else [c]

theorem escape_eq_flatMap (s : List Char) :
    escape_ass_tag s = s.flatMap escChar := by
  rw [escape_ass_tag, charReplace, charReplace, charReplace,
    List.flatMap_assoc, List.flatMap_assoc]
  apply List.flatMap_congr
  intro x _
  by_cases h1 : x = '\\'
  · subst h1; rfl
  · by_cases h2 : x = '\x7b'
    · subst h2; rfl
    · by_cases h3 : x = '\x7d'
      · subst h3; rfl
      · simp [escChar, h1, h2, h3]

theorem brace_not_mem_escape (s : List Char) :
    '\x7d' ∉ escape_ass_tag s := by
  rw [escape_eq_flatMap]
  intro hmem
  rcases List.mem_flatMap.mp hmem with ⟨a, -, ha⟩
  rw [escChar] at ha
  split_ifs at ha with h1 h2 h3
  · simp at ha
  · simp at ha
  · simp at ha
  · rw [List.mem_singleton] at ha
    exact h3 ha.symm

theorem not_mem_charReplace_nl (ch : Char) (n : List Char) (hn : ch ∉ n)
    (h1 : ch ≠ '\\') (h2 : ch ≠ 'N') :
    ch ∉ charReplace '\n' ['\\', 'N'] n := by
  rw [charReplace]
  intro hmem
  rcases List.mem_flatMap.mp hmem with ⟨a, haM, ha⟩
  by_cases hx : a = '\n'
  · rw [if_pos hx] at ha
    rcases List.mem_cons.mp ha with h | h
    · exact h1 h
    · rw [List.mem_singleton] at h
      exact h2 h
  · rw [if_neg hx, List.mem_singleton] at ha
    exact hn (ha ▸ haM)

theorem replace2_cons_ne (a b : Char) (rep : List Char) (c : Char)
    (l : List Char) (h : c ≠ a) :
    replace2 a b rep (c :: l) = c :: replace2 a b rep l := by
  cases l with
  | nil => rfl
  | cons d rest =>
    rw [replace2, if_neg (fun hp => h hp.1)]

theorem replace2_cons2_pos (a b : Char) (rep : List Char) (l : List Char) :
    replace2 a b rep (a :: b :: l) = rep ++ replace2 a b rep l := by
  rw [replace2, if_pos ⟨rfl, rfl⟩]

theorem replace2_cons2_neg (a b : Char) (rep : List Char) (c d : Char)
    (l : List Char) (h : ¬(c = a ∧ d = b)) :
    replace2 a b rep (c :: d :: l) = c :: replace2 a b rep (d :: l) := by
  rw [replace2, if_neg h]

theorem esc2Char_ne_nil (c : Char) : esc2Char c ≠ [] := by
  rw [esc2Char]; split_ifs <;> simp

theorem esc3Char_ne_nil (c : Char) : esc3Char c ≠ [] := by
  rw [esc3Char]; split_ifs <;> simp

theorem flatMap_esc2_eq_nil (t : List Char)
    (h : t.flatMap esc2Char = []) : t = [] := by
  cases t with
  | nil => rfl
  | cons c2 t2 =>
    rw [List.flatMap_cons] at h
    rcases List.append_eq_nil.mp h with ⟨h1, -⟩
    exact absurd h1 (esc2Char_ne_nil c2)

theorem flatMap_esc3_eq_nil (t : List Char)
    (h : t.flatMap esc3Char = []) : t = [] := by
  cases t with
  | nil => rfl
  | cons c2 t2 =>
    rw [List.flatMap_cons] at h
    rcases List.append_eq_nil.mp h with ⟨h1, -⟩
    exact absurd h1 (esc3Char_ne_nil c2)

theorem head_flatMap_esc2 (t : List Char) (hbr : '[' ∉ t) (d : Char)
    (l2 : List Char) (h : t.flatMap esc2Char = d :: l2) : d ≠ '[' := by
  cases t with
  | nil => simp at h
  | cons c2 t2 =>
    rw [List.flatMap_cons, esc2Char] at h
    split_ifs at h with h1 h2 h3
    all_goals simp only [List.cons_append, List.nil_append,
      List.cons.injEq] at h
    · rw [← h.1]; decide
    · rw [← h.1]; decide
    · rw [← h.1]; decide
    · intro hd
      apply hbr
      rw [← h.1] at hd
      rw [hd]
      exact List.mem_cons_self _ _

theorem head_flatMap_esc3 (t : List Char) (hbr : ']' ∉ t) (d : Char)
    (l2 : List Char) (h : t.flatMap esc3Char = d :: l2) : d ≠ ']' := by
  cases t with
  | nil => simp at h
  | cons c2 t2 =>
    rw [List.flatMap_cons, esc3Char] at h
    split_ifs at h with h1 h2 h3
    all_goals simp only [List.cons_append, List.nil_append,
      List.cons.injEq] at h
    · rw [← h.1]; decide
    · rw [← h.1]; decide
    · rw [← h.1]; decide
    · intro hd
      apply hbr
      rw [← h.1] at hd
      rw [hd]
      exact List.mem_cons_self _ _

theorem stage1_unescape (s : List Char) :
    replace2 '\\' '\\' ['\\'] (s.flatMap escChar) = s.flatMap esc2Char := by
  induction s with
  | nil => rfl
  | cons c t ih =>
    rw [List.flatMap_cons, List.flatMap_cons, escChar, esc2Char]
    split_ifs with h1 h2 h3
    · simp only [List.cons_append, List.nil_append]
      rw [replace2_cons2_pos, ih]
      rfl
    · simp only [List.cons_append, List.nil_append]
      rw [replace2_cons2_neg _ _ _ _ _ _ (by rintro ⟨-, hd⟩; revert hd; decide),
        replace2_cons_ne _ _ _ _ _ (by decide), ih]
    · simp only [List.cons_append, List.nil_append]
      rw [replace2_cons2_neg _ _ _ _ _ _ (by rintro ⟨-, hd⟩; revert hd; decide),
        replace2_cons_ne _ _ _ _ _ (by decide), ih]
    · simp only [List.cons_append, List.nil_append]
      rw [replace2_cons_ne _ _ _ _ _ h1, ih]

theorem stage2_unescape (s : List Char) (hbr : '[' ∉ s) :
    replace2 '\\' '[' ['\x7b'] (s.flatMap esc2Char) = s.flatMap esc3Char := by
  induction s with
  | nil => rfl
  | cons c t ih =>
    have hbr' : '[' ∉ t := fun hm => hbr (List.mem_cons_of_mem c hm)
    have hc : c ≠ '[' := fun he => hbr (he ▸ List.mem_cons_self c t)
    rw [List.flatMap_cons, List.flatMap_cons, esc2Char, esc3Char]
    split_ifs with h1 h2 h3
    · simp only [List.cons_append, List.nil_append]
      cases hE : t.flatMap esc2Char with
      | nil =>
        rw [flatMap_esc2_eq_nil t hE]
        rfl
      | cons d l2 =>
        rw [replace2_cons2_neg _ _ _ _ _ _
          (by rintro ⟨-, hd⟩; exact head_flatMap_esc2 t hbr' d l2 hE hd),
          ← hE, ih hbr']
    · simp only [List.cons_append, List.nil_append]
      rw [replace2_cons2_pos, ih hbr']
      rfl
    · simp only [List.cons_append, List.nil_append]
      rw [replace2_cons2_neg _ _ _ _ _ _ (by rintro ⟨-, hd⟩; revert hd; decide),
        replace2_cons_ne _ _ _ _ _ (by decide), ih hbr']
    · simp only [List.cons_append, List.nil_append]
      rw [replace2_cons_ne _ _ _ _ _ h1, ih hbr']

theorem stage3_unescape (s : List Char) (hbr : ']' ∉ s) :
    replace2 '\\' ']' ['\x7d'] (s.flatMap esc3Char) = s := by
  induction s with
  | nil => rfl
  | cons c t ih =>
    have hbr' : ']' ∉ t := fun hm => hbr (List.mem_cons_of_mem c hm)
    have hc : c ≠ ']' := fun he => hbr (he ▸ List.mem_cons_self c t)
    rw [List.flatMap_cons, esc3Char]
    split_ifs with h1 h2 h3
    · simp only [List.cons_append, List.nil_append]
      cases hE : t.flatMap esc3Char with
      | nil =>
        rw [flatMap_esc3_eq_nil t hE] at ih ⊢
        rw [h1]
        rfl
      | cons d l2 =>
        rw [replace2_cons2_neg _ _ _ _ _ _
          (by rintro ⟨-, hd⟩; exact head_flatMap_esc3 t hbr' d l2 hE hd),
          ← hE, ih hbr', h1]
    · simp only [List.cons_append, List.nil_append]
      rw [replace2_cons_ne _ _ _ _ _ (by decide), ih hbr', h2]
    · simp only [List.cons_append, List.nil_append]
      rw [replace2_cons2_pos, ih hbr', h3]
      rfl
    · simp only [List.cons_append, List.nil_append]
      rw [replace2_cons_ne _ _ _ _ _ h1, ih hbr']

theorem unescape_escape (s : List Char) (h1 : '[' ∉ s) (h2 : ']' ∉ s) :
    unescape_ass_tag (escape_ass_tag s) = s := by
  rw [unescape_ass_tag, escape_eq_flatMap, stage1_unescape,
    stage2_unescape s h1, stage3_unescape s h2]

/-! ### Rendering and re-parsing the TIME integers -/

theorem digitChar_isDigit (n : Nat) (h : n < 10) :
    (Nat.digitChar n).isDigit = true := by
  interval_cases n <;> decide

theorem digitChar_toNat (n : Nat) (h : n < 10) :
    (Nat.digitChar n).toNat = n + 48 := by
  interval_cases n <;> decide

theorem natToCharsAux_digits (fuel : Nat) :
    ∀ n, n < fuel → ∀ c ∈ natToCharsAux fuel n, c.isDigit = true := by
  induction fuel with
  | zero => intro n h; omega
  | succ fuel ih =>
    intro n h c hc
    rw [natToCharsAux] at hc
    split_ifs at hc with h10
    · rw [List.mem_singleton] at hc
      rw [hc]
      exact digitChar_isDigit n h10
    · rcases List.mem_append.mp hc with hm | hm
      · have hdiv : n / 10 < n := Nat.div_lt_self (by omega) (by omega)
        exact ih (n / 10) (by omega) c hm
      · rw [List.mem_singleton] at hm
        rw [hm]
        exact digitChar_isDigit (n % 10) (Nat.mod_lt n (by omega))

theorem natToCharsAux_ne_nil (fuel n : Nat) (h : n < fuel) :
    natToCharsAux fuel n ≠ [] := by
  cases fuel with
  | zero => omega
  | succ fuel =>
    rw [natToCharsAux]
    split_ifs
    · simp
    · simp

theorem charsToNat_append_singleton (ds : List Char) (c : Char) :
    charsToNat (ds ++ [c]) = charsToNat ds * 10 + (c.toNat - 48) := by
  rw [charsToNat, charsToNat, List.foldl_append]
  rfl

theorem charsToNat_natToCharsAux (fuel : Nat) :
    ∀ n, n < fuel → charsToNat (natToCharsAux fuel n) = n := by
  induction fuel with
  | zero => intro n h; omega
  | succ fuel ih =>
    intro n h
    rw [natToCharsAux]
    split_ifs with h10
    · show charsToNat [Nat.digitChar n] = n
      show 0 * 10 + ((Nat.digitChar n).toNat - 48) = n
      rw [digitChar_toNat n h10]
      omega
    · have hdiv : n / 10 < n := Nat.div_lt_self (by omega) (by omega)
      rw [charsToNat_append_singleton, ih (n / 10) (by omega),
        digitChar_toNat (n % 10) (Nat.mod_lt n (by omega))]
      omega

theorem natToChars_digits (n : Nat) : ∀ c ∈ natToChars n, c.isDigit = true :=
  natToCharsAux_digits (n + 1) n (Nat.lt_succ_self n)

theorem natToChars_ne_nil (n : Nat) : natToChars n ≠ [] :=
  natToCharsAux_ne_nil (n + 1) n (Nat.lt_succ_self n)

theorem charsToNat_natToChars (n : Nat) : charsToNat (natToChars n) = n :=
  charsToNat_natToCharsAux (n + 1) n (Nat.lt_succ_self n)

theorem takeWhile_append_of (p : Char → Bool) (l r : List Char)
    (hl : ∀ c ∈ l, p c = true)
    (hr : ∀ c l2, r = c :: l2 → p c = false) :
    (l ++ r).takeWhile p = l ∧ (l ++ r).dropWhile p = r := by
  induction l with
  | nil =>
    rw [List.nil_append]
    cases r with
    | nil => exact ⟨rfl, rfl⟩
    | cons c l2 =>
      simp [List.takeWhile_cons, List.dropWhile_cons, hr c l2 rfl]
  | cons a l' ih =>
    have ha : p a = true := hl a (List.mem_cons_self a l')
    have ih' := ih (fun c hc => hl c (List.mem_cons_of_mem a hc))
    simp [List.cons_append, List.takeWhile_cons, List.dropWhile_cons, ha,
      ih'.1, ih'.2]

theorem digitsParse_append (ds r : List Char) (hne : ds ≠ [])
    (hds : ∀ c ∈ ds, c.isDigit = true)
    (hr : ∀ c l2, r = c :: l2 → c.isDigit = false) :
    digitsParse (ds ++ r) = some (charsToNat ds, r) := by
  obtain ⟨ht, hd⟩ := takeWhile_append_of Char.isDigit ds r hds hr
  rw [digitsParse, ht, hd, if_neg (by simp [List.isEmpty_iff, hne])]

theorem parseIntFrom_render (v : Int) (r : List Char)
    (hr : ∀ c l2, r = c :: l2 → c.isDigit = false) :
    parseIntFrom (intToChars v ++ r) = some (v, r) := by
  rw [intToChars]
  split_ifs with hv
  · rw [List.cons_append, parseIntFrom, if_pos rfl,
      digitsParse_append _ _ (natToChars_ne_nil _) (natToChars_digits _) hr]
    simp only [Option.map_some']
    rw [charsToNat_natToChars, Int.toNat_of_nonneg (by omega), neg_neg]
  · cases hnc : natToChars v.toNat with
    | nil => exact absurd hnc (natToChars_ne_nil _)
    | cons c0 cs =>
      have hc0 : c0.isDigit = true := by
        apply natToChars_digits v.toNat
        rw [hnc]
        exact List.mem_cons_self _ _
      have hc0' : c0 ≠ '-' := by
        intro he
        rw [he] at hc0
        exact absurd hc0 (by decide)
      rw [List.cons_append, parseIntFrom, if_neg hc0',
        ← List.cons_append, ← hnc,
        digitsParse_append _ _ (natToChars_ne_nil _) (natToChars_digits _) hr]
      simp only [Option.map_some']
      rw [charsToNat_natToChars, Int.toNat_of_nonneg (by omega)]

theorem timeMatchAt_render (s e : Int) (text : List Char) :
    timeMatchAt (timeChars s e ++ text) = some (s, e, text) := by
  have hshape : timeChars s e ++ text =
      timeKey ++ (intToChars s ++ (',' ::
        (intToChars e ++ ('\x7d' :: text)))) := by
    rw [timeChars]
    simp [List.append_assoc]
  have hpre : timeKey.isPrefixOf (timeChars s e ++ text) = true := by
    rw [List.isPrefixOf_iff_prefix, hshape]
    exact List.prefix_append _ _
  have hdrop : (timeChars s e ++ text).drop 6 =
      intToChars s ++ (',' :: (intToChars e ++ ('\x7d' :: text))) := by
    rw [hshape, show (6 : Nat) = timeKey.length from rfl, List.drop_left]
  have hp1 : parseIntFrom (intToChars s ++ (',' ::
      (intToChars e ++ ('\x7d' :: text)))) =
      some (s, ',' :: (intToChars e ++ ('\x7d' :: text))) :=
    parseIntFrom_render s _ (by
      intro c l2 hcl
      injection hcl with hc _
      rw [← hc]
      decide)
  have hp2 : parseIntFrom (intToChars e ++ ('\x7d' :: text)) =
      some (e, '\x7d' :: text) :=
    parseIntFrom_render e _ (by
      intro c l2 hcl
      injection hcl with hc _
      rw [← hc]
      decide)
  simp [timeMatchAt, hpre, hdrop, hp1, hp2]

theorem timeScan_at_zero (u : List Char) (a b : Int) (post : List Char)
    (hu : u ≠ []) (h : timeMatchAt u = some (a, b, post)) :
    timeScan u = some ([], a, b, post) := by
  cases u with
  | nil => exact absurd rfl hu
  | cons c rest => simp only [timeScan, h]

/-! ### Locating the NOTE tag

The packed text is `{TIME:s,e}` ++ text ++ `{NOTE:esc}`.  Provided the
text does not contain the literal `{NOTE:`, the NOTE regex can only match
the appended tag: an occurrence cannot lie in the TIME prefix (it has no
`N`; a `{` occurs in it only at position 0, where `T` ≠ `N` follows) and
cannot straddle into the tag (`{NOTE:` has no self-overlap: positions 1–5
hold `N`, `O`, `T`, `E`, `:`, never the `{` the tag starts with). -/

/-- Does `pat` occur as a contiguous substring? (left-to-right scan, the
search order of `re.search`). -/
def occursIn (pat : List Char) : List Char → Bool
  | [] => pat.isEmpty
  | c :: rest => pat.isPrefixOf (c :: rest) || occursIn pat rest

theorem occursIn_of_suffix_prefix (p v u : List Char) (hv : v <:+ u)
    (hp : p.isPrefixOf v = true) (hpne : p ≠ []) : occursIn p u = true := by
  obtain ⟨w, rfl⟩ := hv
  induction w with
  | nil =>
    rw [List.nil_append]
    cases v with
    | nil =>
      cases p with
      | nil => exact absurd rfl hpne
      | cons a as => simp [List.isPrefixOf] at hp
    | cons c rest =>
      rw [occursIn, hp, Bool.true_or]
  | cons a w' ih =>
    rw [List.cons_append, occursIn, ih, Bool.or_true]

theorem occursIn_true_elim (p u : List Char) (h : occursIn p u = true) :
    ∃ v, v <:+ u ∧ p.isPrefixOf v = true := by
  induction u with
  | nil =>
    rw [occursIn] at h
    refine ⟨[], List.suffix_refl _, ?_⟩
    rw [List.isEmpty_iff.mp h]
    rfl
  | cons c rest ih =>
    rw [occursIn, Bool.or_eq_true] at h
    rcases h with h | h
    · exact ⟨c :: rest, List.suffix_refl _, h⟩
    · rcases ih h with ⟨v, hv, hp⟩
      exact ⟨v, hv.trans (List.suffix_cons c rest), hp⟩

theorem isPrefixOf_append_left (p : List Char) :
    ∀ (x y : List Char), p.length ≤ x.length →
      p.isPrefixOf (x ++ y) = true → p.isPrefixOf x = true := by
  induction p with
  | nil =>
    intro x y _ _
    cases x <;> rfl
  | cons a p' ih =>
    intro x y hlen h
    cases x with
    | nil => simp at hlen
    | cons b x' =>
      rw [List.cons_append, List.isPrefixOf] at h
      simp only [Bool.and_eq_true] at h
      rcases h with ⟨hab, hrest⟩
      rw [List.isPrefixOf, hab, Bool.true_and]
      exact ih x' y (by simp at hlen ⊢; omega) hrest

theorem suffix_append_cases (v x y : List Char) (h : v <:+ x ++ y) :
    v <:+ y ∨ ∃ x', x' <:+ x ∧ x' ≠ [] ∧ v = x' ++ y := by
  induction x with
  | nil =>
    left
    simpa using h
  | cons a x' ih =>
    rw [List.cons_append] at h
    rcases List.suffix_cons_iff.mp h with heq | hsfx
    · right
      exact ⟨a :: x', List.suffix_refl _, by simp,
        by rw [heq, List.cons_append]⟩
    · rcases ih hsfx with hy | ⟨x'', hx'', hne, rfl⟩
      · left
        exact hy
      · right
        exact ⟨x'', hx''.trans (List.suffix_cons a x'), hne, rfl⟩

theorem mem_intToChars (v : Int) (c : Char) (hc : c ∈ intToChars v) :
    c.isDigit = true ∨ c = '-' := by
  rw [intToChars] at hc
  split_ifs at hc
  · rcases List.mem_cons.mp hc with rfl | hm
    · right
      rfl
    · left
      exact natToChars_digits _ c hm
  · left
    exact natToChars_digits _ c hc

theorem brace_not_mem_intToChars (v : Int) : '\x7b' ∉ intToChars v := by
  intro h
  rcases mem_intToChars v _ h with hd | hd
  · exact absurd hd (by decide)
  · exact absurd hd (by decide)

/-- `timeChars` with its head character split off. -/
def timeTail (s e : Int) : List Char :=
  ['T', 'I', 'M', 'E', ':'] ++ intToChars s ++ [','] ++ intToChars e ++
    ['\x7d']

theorem timeChars_eq_cons (s e : Int) :
    timeChars s e = '\x7b' :: timeTail s e := rfl

theorem brace_not_mem_timeTail (s e : Int) : '\x7b' ∉ timeTail s e := by
  intro hmem
  rw [timeTail] at hmem
  rcases List.mem_append.mp hmem with h | h
  · rcases List.mem_append.mp h with h | h
    · rcases List.mem_append.mp h with h | h
      · rcases List.mem_append.mp h with h | h
        · exact absurd h (by decide)
        · exact brace_not_mem_intToChars s h
      · exact absurd h (by decide)
    · exact brace_not_mem_intToChars e h
  · exact absurd h (by decide)

theorem suffix_brace_eq (s e : Int) (v'' : List Char)
    (h : ('\x7b' :: v'') <:+ timeChars s e) :
    '\x7b' :: v'' = timeChars s e := by
  rw [timeChars_eq_cons] at h ⊢
  rcases List.suffix_cons_iff.mp h with heq | hsfx
  · exact heq
  · exact absurd (hsfx.subset (List.mem_cons_self _ _))
      (brace_not_mem_timeTail s e)

theorem noteKey_straddle_false (v w : List Char) (hv : v ≠ [])
    (hlen : v.length < 6) :
    noteKey.isPrefixOf (v ++ ('\x7b' :: w)) = false := by
  rcases v with _ | ⟨a, _ | ⟨b, _ | ⟨c2, _ | ⟨d2, _ | ⟨e2, rest⟩⟩⟩⟩⟩
  · exact absurd rfl hv
  · simp [noteKey, List.isPrefixOf]
  · simp [noteKey, List.isPrefixOf]
  · simp [noteKey, List.isPrefixOf]
  · simp [noteKey, List.isPrefixOf]
  · rcases rest with _ | ⟨f2, rest'⟩
    · simp [noteKey, List.isPrefixOf]
    · exfalso
      simp only [List.length_cons] at hlen
      omega

theorem occursIn_timeChars_append (s e : Int) (text : List Char)
    (htext : occursIn noteKey text = false) :
    occursIn noteKey (timeChars s e ++ text) = false := by
  by_contra hcon
  have h' : occursIn noteKey (timeChars s e ++ text) = true := by
    revert hcon
    cases occursIn noteKey (timeChars s e ++ text) <;> simp
  rcases occursIn_true_elim _ _ h' with ⟨v, hv, hp⟩
  rcases suffix_append_cases v (timeChars s e) text hv with
    hvt | ⟨v', hv', hne, rfl⟩
  · have hx := occursIn_of_suffix_prefix noteKey v text hvt hp (by decide)
    rw [htext] at hx
    exact Bool.false_ne_true hx
  · cases v' with
    | nil => exact hne rfl
    | cons c0 v'' =>
      have hc0 : c0 = '\x7b' := by
        rw [List.cons_append, noteKey, List.isPrefixOf] at hp
        simp only [Bool.and_eq_true] at hp
        exact (beq_iff_eq.mp hp.1).symm
      subst hc0
      have hfull := suffix_brace_eq s e v'' hv'
      rw [hfull] at hp
      rw [timeChars_eq_cons, timeTail] at hp
      simp [noteKey, List.isPrefixOf, List.cons_append] at hp

theorem noteKey_no_false_start (s e : Int) (text tagRest : List Char)
    (htext : occursIn noteKey text = false) :
    ∀ x c y, timeChars s e ++ text = x ++ c :: y →
      noteKey.isPrefixOf ((c :: y) ++ ('\x7b' :: tagRest)) = false := by
  intro x c y hsplit
  have hsfx : (c :: y) <:+ (timeChars s e ++ text) := ⟨x, hsplit.symm⟩
  by_contra hcon
  have hpref : noteKey.isPrefixOf ((c :: y) ++ ('\x7b' :: tagRest)) = true := by
    revert hcon
    cases noteKey.isPrefixOf ((c :: y) ++ ('\x7b' :: tagRest)) <;> simp
  by_cases hlen : (c :: y).length < 6
  · rw [noteKey_straddle_false (c :: y) tagRest (by simp) hlen] at hpref
    exact Bool.false_ne_true hpref
  · have h6 : noteKey.length ≤ (c :: y).length := by
      rw [show noteKey.length = 6 from rfl]
      omega
    have hp2 := isPrefixOf_append_left noteKey (c :: y) _ h6 hpref
    have hocc := occursIn_of_suffix_prefix noteKey (c :: y) _ hsfx hp2
      (by decide)
    rw [occursIn_timeChars_append s e text htext] at hocc
    exact Bool.false_ne_true hocc

theorem noteMatchAt_none (str : List Char)
    (h : noteKey.isPrefixOf str = false) : noteMatchAt str = none := by
  rw [noteMatchAt, if_neg (by simp [h])]

theorem noteMatchAt_render (esc : List Char) (hesc : '\x7d' ∉ esc) :
    noteMatchAt (noteKey ++ (esc ++ ['\x7d'])) = some (esc, []) := by
  have hpre : noteKey.isPrefixOf (noteKey ++ (esc ++ ['\x7d'])) = true := by
    rw [List.isPrefixOf_iff_prefix]
    exact List.prefix_append _ _
  have hdrop : (noteKey ++ (esc ++ ['\x7d'])).drop 6 = esc ++ ['\x7d'] := by
    rw [show (6 : Nat) = noteKey.length from rfl, List.drop_left]
  obtain ⟨ht, hd⟩ := takeWhile_append_of (fun c => c ≠ '\x7d') esc ['\x7d']
    (by
      intro c hc
      simp only [decide_eq_true_eq]
      intro he
      exact hesc (he ▸ hc))
    (by
      intro c l2 hcl
      injection hcl with hc _
      rw [← hc]
      decide)
  rw [noteMatchAt, if_pos hpre, hdrop, if_pos (by simp), ht, hd]
  rfl

theorem noteScan_render (u esc : List Char) (hesc : '\x7d' ∉ esc)
    (H : ∀ x c y, u = x ++ c :: y →
      noteKey.isPrefixOf ((c :: y) ++ (noteKey ++ (esc ++ ['\x7d']))) =
        false) :
    noteScan (u ++ (noteKey ++ (esc ++ ['\x7d']))) = some (u, esc, []) := by
  induction u with
  | nil =>
    rw [List.nil_append]
    have hm := noteMatchAt_render esc hesc
    cases hsh : noteKey ++ (esc ++ ['\x7d']) with
    | nil => simp [noteKey] at hsh
    | cons c0 rest0 =>
      rw [hsh] at hm
      simp only [noteScan, hm]
  | cons c u' ih =>
    rw [List.cons_append]
    have hnone : noteMatchAt (c :: (u' ++ (noteKey ++ (esc ++ ['\x7d'])))) =
        none := by
      apply noteMatchAt_none
      exact H [] c u' rfl
    simp only [noteScan, hnone]
    rw [ih (fun x c2 y hx => H (c :: x) c2 y (by rw [hx, List.cons_append]))]
    rfl

/-- Claim C2 (amended): for every pair of integers `start`, `end` (negative
values included), every nonempty note without `[`, `]`, and every text not
containing the literal `{NOTE:`, packing with `_pack_meta` and unpacking
with `_extract_meta` reproduces `start`, `end` and the text exactly, and
reproduces the note up to newline normalization: each `\n` in the note
comes back as the two-character sequence `\N` (so notes without newlines
round-trip exactly, and notes with embedded newlines do not — see the
counterexample). -/
theorem c2_amended (s e : Int) (note text : List Char)
    (hnil : note ≠ [])
    (htext : occursIn noteKey text = false)
    (hb1 : '[' ∉ note) (hb2 : ']' ∉ note) :
    (pack_meta text ⟨some note, some s, some e⟩).map extract_meta =
      some (text,
        ⟨some (charReplace '\n' ['\\', 'N'] note), some s, some e⟩) := by
  have hnnb1 : '[' ∉ charReplace '\n' ['\\', 'N'] note :=
    not_mem_charReplace_nl '[' note hb1 (by decide) (by decide)
  have hnnb2 : ']' ∉ charReplace '\n' ['\\', 'N'] note :=
    not_mem_charReplace_nl ']' note hb2 (by decide) (by decide)
  have hescb : '\x7d' ∉ escape_ass_tag (charReplace '\n' ['\\', 'N'] note) :=
    brace_not_mem_escape _
  have hpackNote : packNote (timeChars s e ++ text)
      ⟨some note, some s, some e⟩ =
      (timeChars s e ++ text) ++
        (noteKey ++
          (escape_ass_tag (charReplace '\n' ['\\', 'N'] note) ++
            ['\x7d'])) := by
    show (if note.isEmpty then timeChars s e ++ text
      else (timeChars s e ++ text) ++ noteTagOf note) = _
    rw [if_neg (by simp [List.isEmpty_iff, hnil])]
    rfl
  have hscan := noteScan_render (timeChars s e ++ text)
    (escape_ass_tag (charReplace '\n' ['\\', 'N'] note)) hescb
    (fun x c y hx =>
      noteKey_no_false_start s e text
        (['N', 'O', 'T', 'E', ':'] ++
          (escape_ass_tag (charReplace '\n' ['\\', 'N'] note) ++ ['\x7d']))
        htext x c y hx)
  have hnote : extractNote ((timeChars s e ++ text) ++
      (noteKey ++
        (escape_ass_tag (charReplace '\n' ['\\', 'N'] note) ++ ['\x7d']))) =
      (timeChars s e ++ text, some (charReplace '\n' ['\\', 'N'] note)) := by
    simp only [extractNote, hscan, List.append_nil]
    rw [unescape_escape _ hnnb1 hnnb2]
  have htime : timeScan (timeChars s e ++ text) = some ([], s, e, text) :=
    timeScan_at_zero _ s e text (by simp [timeChars, timeKey])
      (timeMatchAt_render s e text)
  show (some (packNote (timeChars s e ++ text)
    ⟨some note, some s, some e⟩)).map extract_meta = _
  rw [hpackNote, Option.map_some']
  rw [extract_meta, hnote]
  simp only [extractTime, htime, List.nil_append]

/-- Claim C2 witness: start `-5`, end `7`, note `"a{b}c"` (containing both
brace characters) and text `"hello"` satisfy the hypotheses and round-trip
exactly (`charReplace` is the identity on a newline-free note). -/
theorem c2_witness :
    (("a\x7bb\x7dc".data : List Char) ≠ [] ∧
      occursIn noteKey ("hello".data) = false ∧
      '[' ∉ ("a\x7bb\x7dc".data : List Char) ∧
      ']' ∉ ("a\x7bb\x7dc".data : List Char)) ∧
    (pack_meta ("hello".data)
        ⟨some ("a\x7bb\x7dc".data), some (-5), some 7⟩).map extract_meta =
      some (("hello".data),
        ⟨some (charReplace '\n' ['\\', 'N'] ("a\x7bb\x7dc".data)),
          some (-5), some 7⟩) :=
  ⟨⟨by decide, by decide, by decide, by decide⟩,
    c2_amended (-5) 7 ("a\x7bb\x7dc".data) ("hello".data)
      (by decide) (by decide) (by decide) (by decide)⟩

end Bubblesub
